import Mathlib

/-
  Verification of the html2exe build pipeline.

  Shallow embedding of:
  - src/services/fileProcessor.js (ZIP intake, extraction, path sanitisation,
    nested-structure flattening, index.html canonicalisation, cleanup)
  - src/services/electronBuilder.js (app-name sanitisation, dependency cache,
    dependency installation fallback, executable build and artifact search)
  - src/unnamed/part_000, the express server (build phase state machine and
    the pipeline coordinator buildProcess).

  Paths are modelled the way Node's posix path module treats them: strings
  split at the separator character. File systems are modelled as ordered
  trees (the order of a directory listing is the order of the list).
-/

set_option autoImplicit false

namespace Html2Exe

/-! ## Constants from fileProcessor.js -/

/-- this.maxTotalSize = 50 * 1024 * 1024 (fileProcessor.js line 9). -/
def maxTotalSize : Nat := 50 * 1024 * 1024

/-- this.maxFileSize = 10 * 1024 * 1024 (fileProcessor.js line 8). -/
def maxFileSize : Nat := 10 * 1024 * 1024

/-- this.blockedExtensions (fileProcessor.js line 10). -/
def blockedExtensions : List String :=
  [".exe", ".bat", ".sh", ".cmd", ".scr", ".vbs", ".ps1", ".com", ".pif"]

/-! ## Character-level path toolkit

Node's posix `path` functions operate on strings; we model the exact string
operations used by fileProcessor.js on the character list underlying a
`String` (in this toolchain a `String` is a structure holding a
`List Char`). -/

/-- Split a character list at every separator character, like
JavaScript `s.split('/')`: `"a//b"` gives `["a", "", "b"]` and the empty
string gives `[""]`. -/
def splitCh : List Char → List (List Char)
  | [] => [[]]
  | c :: cs =>
    if c = '/' then [] :: splitCh cs
    else
      match splitCh cs with
      | [] => [[c]]
      | s :: ss => (c :: s) :: ss

/-- Joining the pieces back with the separator, the inverse of `splitCh`. -/
def joinCh : List (List Char) → List Char
  | [] => []
  | [s] => s
  | s :: ss => s ++ '/' :: joinCh ss

theorem splitCh_ne_nil (cs : List Char) : splitCh cs ≠ [] := by
  induction cs with
  | nil => simp [splitCh]
  | cons c cs ih =>
    simp only [splitCh]
    split
    · simp
    · cases h : splitCh cs with
      | nil => exact absurd h ih
      | cons s ss => simp

theorem joinCh_splitCh (cs : List Char) : joinCh (splitCh cs) = cs := by
  induction cs with
  | nil => simp [splitCh, joinCh]
  | cons c cs ih =>
    simp only [splitCh]
    split
    · rename_i hc
      cases h : splitCh cs with
      | nil => exact absurd h (splitCh_ne_nil cs)
      | cons s ss =>
        rw [h] at ih
        simp [joinCh, hc, ih]
    · cases h : splitCh cs with
      | nil => exact absurd h (splitCh_ne_nil cs)
      | cons s ss =>
        rw [h] at ih
        cases ss with
        | nil => simp_all [joinCh]
        | cons t ts => simp_all [joinCh]

/-- A piece produced by `splitCh` never contains the separator. -/
theorem splitCh_no_sep (cs : List Char) :
    ∀ p ∈ splitCh cs, '/' ∉ p := by
  induction cs with
  | nil => simp [splitCh]
  | cons c cs ih =>
    simp only [splitCh]
    split
    · intro p hp
      rcases List.mem_cons.mp hp with h | h
      · simp [h]
      · exact ih p h
    · rename_i hc
      cases h : splitCh cs with
      | nil => exact absurd h (splitCh_ne_nil cs)
      | cons s ss =>
        intro p hp
        rcases List.mem_cons.mp hp with h1 | h1
        · subst h1
          intro hmem
          rcases List.mem_cons.mp hmem with h2 | h2
          · exact hc h2.symm
          · exact ih s (by simp [h]) h2
        · exact ih p (by simp [h, h1])

theorem splitCh_of_no_sep (cs : List Char) (h : '/' ∉ cs) : splitCh cs = [cs] := by
  induction cs with
  | nil => simp [splitCh]
  | cons c cs ih =>
    simp only [splitCh]
    have hc : ¬ c = '/' := by
      intro hcc
      exact h (by simp [hcc])
    rw [if_neg hc]
    have : splitCh cs = [cs] := ih (by intro hm; exact h (List.mem_cons_of_mem _ hm))
    rw [this]

theorem splitCh_append_sep (p cs : List Char) (h : '/' ∉ p) :
    splitCh (p ++ '/' :: cs) = p :: splitCh cs := by
  induction p with
  | nil => simp [splitCh]
  | cons c q ih =>
    have hc : ¬ c = '/' := by
      intro hcc
      exact h (by simp [hcc])
    have hq : '/' ∉ q := by intro hm; exact h (List.mem_cons_of_mem _ hm)
    simp only [List.cons_append, splitCh, if_neg hc]
    rw [show q.append ('/' :: cs) = q ++ '/' :: cs from rfl, ih hq]

theorem splitCh_joinCh (ps : List (List Char)) (hne : ps ≠ [])
    (h : ∀ p ∈ ps, '/' ∉ p) : splitCh (joinCh ps) = ps := by
  induction ps with
  | nil => exact absurd rfl hne
  | cons p ps ih =>
    cases ps with
    | nil => simpa [joinCh] using splitCh_of_no_sep p (h p (by simp))
    | cons q qs =>
      have hp : '/' ∉ p := h p (by simp)
      have hrest : ∀ r ∈ q :: qs, '/' ∉ r := by
        intro r hr
        exact h r (List.mem_cons_of_mem _ hr)
      simp only [joinCh]
      rw [splitCh_append_sep p _ hp, ih (by simp) hrest]

/-! ## String-level path operations (fileProcessor.js sanitizePath and friends) -/

/-- `s.split('/')` lifted to `String`. -/
def segsOf (s : String) : List String := (splitCh s.data).map String.mk

/-- Join segments with the separator; inverse of `segsOf`. -/
def joinSegs (l : List String) : String := String.mk (joinCh (l.map String.data))

theorem joinSegs_segsOf (s : String) : joinSegs (segsOf s) = s := by
  have : (List.map String.mk (splitCh s.data)).map String.data = splitCh s.data := by
    rw [List.map_map]
    exact List.map_id'' (fun l => rfl) _
  simp only [joinSegs, segsOf, this, joinCh_splitCh]

/-- One step of posix `path.normalize` segment processing: empty and `.`
segments vanish, `..` pops the previous real segment (and accumulates at
the front of a relative path). -/
def normStep (acc : List String) (seg : String) : List String :=
  if seg = "" ∨ seg = "." then acc
  else if seg = ".." then
    match acc.getLast? with
    | none => acc ++ [".."]
    | some last => if last = ".." then acc ++ [".."] else acc.dropLast
  else acc ++ [seg]

/-- Segment list traversal of posix `path.normalize` on a relative path. -/
def normalizeRelSegs (l : List String) : List String := l.foldl normStep []

/-- Node `path.normalize` for the relative paths handled by sanitizePath
(an empty resolution yields `"."`; trailing-separator preservation is not
modelled because the entries reasoned about are file paths without one). -/
def normalizeRelStr (s : String) : String :=
  let r := normalizeRelSegs (segsOf s)
  if r = [] then "." else joinSegs r

/-- `filePath.replace(/^\/+/, '')` (fileProcessor.js line 380). -/
def stripLeadingSeps (s : String) : String :=
  String.mk (s.data.dropWhile (fun c => c = '/'))

/-- Whether a character list contains two adjacent dots. -/
def hasDDot : List Char → Bool
  | [] => false
  | [_] => false
  | c :: d :: cs => (c = '.' && d = '.') || hasDDot (d :: cs)

/-- The global regex replace `/\.\.[\/\\]/g` with the empty string
(fileProcessor.js line 384): a left-to-right scan deleting every
non-overlapping occurrence of two dots followed by a separator. -/
def remDD : List Char → List Char
  | [] => []
  | [c] => [c]
  | [c, d] => [c, d]
  | c :: d :: e :: cs =>
    if c = '.' ∧ d = '.' ∧ (e = '/' ∨ e = '\\') then remDD cs
    else c :: remDD (d :: e :: cs)

/-- fileProcessor.js sanitizePath (lines 378-387): strip leading
separators, `path.normalize`, then delete remaining `../` or `..\`
occurrences. -/
def sanitizePath (s : String) : String :=
  String.mk (remDD (normalizeRelStr (stripLeadingSeps s)).data)

/-- Segment-level semantics of `path.resolve(baseDir, p)` followed by
posix normalisation, starting from the absolute base directory given as a
segment list. -/
def resolveSegs : List String → List String → List String
  | base, [] => base
  | base, seg :: rest =>
    resolveSegs
      (if seg = "" ∨ seg = "." then base
       else if seg = ".." then base.dropLast
       else base ++ [seg]) rest

/-- Descendant-or-equal test on resolved segment lists; this is the
segment-level meaning of
`resolvedPath.startsWith(resolvedBase + path.sep) || resolvedPath === resolvedBase`
(fileProcessor.js lines 400 and 415). -/
def descendsFrom (base r : List String) : Bool := decide (r.take base.length = base)

/-- fileProcessor.js isPathSafe (lines 411-416). -/
def isPathSafe (base : List String) (p : String) : Bool :=
  descendsFrom base (resolveSegs base (segsOf p))

/-- Result of sanitizeAndValidatePath. -/
structure PathCheck where
  safe : Bool
  path : String
deriving DecidableEq

/-- fileProcessor.js sanitizeAndValidatePath (lines 395-403). -/
def sanitizeAndValidatePath (base : List String) (p : String) : PathCheck :=
  let st := sanitizePath p
  { safe := isPathSafe base st, path := st }

/-- Node `path.extname(p).toLowerCase()`: the suffix of the basename from
its last dot, empty when the basename has no dot or only a leading dot. -/
def extnameLower (p : String) : String :=
  let base := (segsOf p).getLastD ""
  let r := base.data.reverse
  let afterRev := r.takeWhile (fun c => ¬(c = '.'))
  match r.dropWhile (fun c => ¬(c = '.')) with
  | [] => ""
  | [_] => ""
  | _ :: _ :: _ => String.mk (('.' :: afterRev.reverse).map Char.toLower)

/-- fileProcessor.js isAllowedFile (lines 423-431): a pure blacklist on
the lower-cased extension. -/
def isAllowedFile (p : String) : Bool :=
  !(blockedExtensions.contains (extnameLower p))

/-! ## Tame paths

A segment is good when it is nonempty, not `.`, contains no two adjacent
dots and no separator; paths all of whose segments are good pass through
every string operation of sanitizePath unchanged. -/

def goodSeg (seg : String) : Bool :=
  seg != "" && seg != "." && !hasDDot seg.data && decide ('/' ∉ seg.data)

def tameSegs (l : List String) : Bool := !l.isEmpty && l.all goodSeg

def tameRel (s : String) : Bool := tameSegs (segsOf s)

theorem goodSeg_parts {seg : String} (h : goodSeg seg = true) :
    seg ≠ "" ∧ seg ≠ "." ∧ hasDDot seg.data = false ∧ '/' ∉ seg.data := by
  simp only [goodSeg, Bool.and_eq_true, bne_iff_ne, ne_eq, Bool.not_eq_true',
    decide_eq_true_eq] at h
  exact ⟨h.1.1.1, h.1.1.2, h.1.2, h.2⟩

theorem goodSeg_ne_ddot {seg : String} (h : goodSeg seg = true) : seg ≠ ".." := by
  intro hs
  subst hs
  have := (goodSeg_parts h).2.2.1
  simp [hasDDot] at this

theorem normStep_good {seg : String} (acc : List String) (h : goodSeg seg = true) :
    normStep acc seg = acc ++ [seg] := by
  obtain ⟨h1, h2, -, -⟩ := goodSeg_parts h
  simp [normStep, h1, h2, goodSeg_ne_ddot h]

theorem foldl_normStep_good (l : List String) (h : ∀ seg ∈ l, goodSeg seg = true) :
    ∀ acc, l.foldl normStep acc = acc ++ l := by
  induction l with
  | nil => simp
  | cons seg rest ih =>
    intro acc
    have hs : goodSeg seg = true := h seg (by simp)
    have hr : ∀ t ∈ rest, goodSeg t = true := fun t ht => h t (List.mem_cons_of_mem _ ht)
    simp only [List.foldl_cons, normStep_good acc hs, ih hr]
    simp

theorem normalizeRelSegs_good (l : List String) (h : ∀ seg ∈ l, goodSeg seg = true) :
    normalizeRelSegs l = l := by
  simpa using foldl_normStep_good l h []

theorem tameSegs_mem {l : List String} (h : tameSegs l = true) :
    ∀ seg ∈ l, goodSeg seg = true := by
  intro seg hs
  simp only [tameSegs, Bool.and_eq_true, List.all_eq_true] at h
  exact h.2 seg hs

theorem segsOf_ne_nil (s : String) : segsOf s ≠ [] := by
  simp only [segsOf, ne_eq, List.map_eq_nil_iff]
  exact splitCh_ne_nil s.data

theorem tame_stripLeadingSeps {s : String} (h : tameRel s = true) :
    stripLeadingSeps s = s := by
  cases hd : s.data with
  | nil =>
    have : s.data.dropWhile (fun c => c = '/') = s.data := by simp [hd]
    simp only [stripLeadingSeps, this]
  | cons c cs =>
    by_cases hc : c = '/'
    · exfalso
      have hsegs : segsOf s = "" :: (splitCh cs).map String.mk := by
        simp [segsOf, hd, splitCh, hc]
      have hg := tameSegs_mem h "" (by rw [hsegs]; simp)
      exact (goodSeg_parts hg).1 rfl
    · have : s.data.dropWhile (fun c => c = '/') = s.data := by
        rw [hd]
        simp [List.dropWhile_cons, hc]
      simp only [stripLeadingSeps, this]

theorem tame_segsOf_joinSegs {l : List String} (h : tameSegs l = true) :
    segsOf (joinSegs l) = l := by
  have hne : l.map String.data ≠ [] := by
    simp only [tameSegs, Bool.and_eq_true] at h
    simpa using (by simpa [List.isEmpty_iff] using h.1 : l ≠ [])
  have hns : ∀ p ∈ l.map String.data, '/' ∉ p := by
    intro p hp
    rcases List.mem_map.mp hp with ⟨seg, hseg, rfl⟩
    exact (goodSeg_parts (tameSegs_mem h seg hseg)).2.2.2
  simp only [segsOf, joinSegs, splitCh_joinCh (l.map String.data) hne hns, List.map_map]
  exact List.map_id'' (fun seg => rfl) l

theorem hasDDot_cons_false {c : Char} {cs : List Char}
    (h : hasDDot (c :: cs) = false) : hasDDot cs = false := by
  cases cs with
  | nil => simp [hasDDot]
  | cons d ds =>
    simp only [hasDDot, Bool.or_eq_false_iff] at h
    exact h.2

theorem hasDDot_join_sep (a b : List Char) (ha : hasDDot a = false)
    (hb : hasDDot b = false) : hasDDot (a ++ '/' :: b) = false := by
  induction a with
  | nil =>
    cases b with
    | nil => simp [hasDDot]
    | cons e es =>
      simp only [List.nil_append, hasDDot, Bool.or_eq_false_iff]
      exact ⟨by simp, hb⟩
  | cons c a ih =>
    cases a with
    | nil =>
      simp only [List.cons_append, List.nil_append, hasDDot, Bool.or_eq_false_iff]
      constructor
      · simp
      · cases b with
        | nil => simp [hasDDot]
        | cons e es =>
          simp only [hasDDot, Bool.or_eq_false_iff]
          exact ⟨by simp, hb⟩
    | cons d ds =>
      simp only [hasDDot, Bool.or_eq_false_iff] at ha
      have := ih ha.2
      simp only [List.cons_append] at this ⊢
      simp only [hasDDot, Bool.or_eq_false_iff]
      exact ⟨ha.1, this⟩

theorem hasDDot_joinSegs_good (l : List String) (h : ∀ seg ∈ l, goodSeg seg = true) :
    hasDDot (joinSegs l).data = false := by
  induction l with
  | nil => simp [joinSegs, joinCh, hasDDot]
  | cons seg rest ih =>
    cases rest with
    | nil =>
      have hg := (goodSeg_parts (h seg (by simp))).2.2.1
      simpa [joinSegs, joinCh] using hg
    | cons t ts =>
      have hg := (goodSeg_parts (h seg (by simp))).2.2.1
      have hrest : hasDDot (joinSegs (t :: ts)).data = false :=
        ih (fun u hu => h u (List.mem_cons_of_mem _ hu))
      have hjoin : (joinSegs (seg :: t :: ts)).data =
          seg.data ++ '/' :: (joinSegs (t :: ts)).data := by
        simp [joinSegs, joinCh]
      rw [hjoin]
      exact hasDDot_join_sep _ _ hg hrest

theorem remDD_id (cs : List Char) (h : hasDDot cs = false) : remDD cs = cs := by
  induction cs with
  | nil => rfl
  | cons c cs ih =>
    have hcs : hasDDot cs = false := hasDDot_cons_false h
    cases cs with
    | nil => rfl
    | cons d ds =>
      have hcd : ¬(c = '.' ∧ d = '.') := by
        intro ⟨h1, h2⟩
        subst h1; subst h2
        simp [hasDDot] at h
      cases ds with
      | nil => rfl
      | cons e es =>
        have hcond : ¬(c = '.' ∧ d = '.' ∧ (e = '/' ∨ e = '\\')) := by
          intro ⟨h1, h2, _⟩
          exact hcd ⟨h1, h2⟩
        simp only [remDD, if_neg hcond]
        rw [ih hcs]

/-- A tame path is a fixed point of sanitizePath. -/
theorem tame_sanitizePath_id {s : String} (h : tameRel s = true) :
    sanitizePath s = s := by
  have hgood : ∀ seg ∈ segsOf s, goodSeg seg = true := tameSegs_mem h
  have hstrip : stripLeadingSeps s = s := tame_stripLeadingSeps h
  have hnorm : normalizeRelStr s = s := by
    have h1 : normalizeRelSegs (segsOf s) = segsOf s := normalizeRelSegs_good _ hgood
    simp [normalizeRelStr, h1, segsOf_ne_nil s, joinSegs_segsOf]
  have hdd : hasDDot s.data = false := by
    have := hasDDot_joinSegs_good (segsOf s) hgood
    rwa [joinSegs_segsOf] at this
  simp only [sanitizePath, hstrip, hnorm, remDD_id _ hdd]

theorem resolveSegs_good (l : List String) (h : ∀ seg ∈ l, goodSeg seg = true) :
    ∀ base, resolveSegs base l = base ++ l := by
  induction l with
  | nil => simp [resolveSegs]
  | cons seg rest ih =>
    intro base
    have hs := h seg (by simp)
    obtain ⟨h1, h2, -, -⟩ := goodSeg_parts hs
    show resolveSegs
      (if seg = "" ∨ seg = "." then base
       else if seg = ".." then base.dropLast
       else base ++ [seg]) rest = base ++ seg :: rest
    rw [if_neg (by simp [h1, h2]), if_neg (goodSeg_ne_ddot hs),
      ih (fun t ht => h t (List.mem_cons_of_mem _ ht))]
    simp

/-- A tame path always passes the descendant check of
sanitizeAndValidatePath and isPathSafe. -/
theorem tame_isPathSafe {s : String} (base : List String) (h : tameRel s = true) :
    isPathSafe base s = true := by
  simp only [isPathSafe, resolveSegs_good _ (tameSegs_mem h) base, descendsFrom,
    List.take_left]
  simp

/-! ## File system trees

A directory's content is an ordered list of entries; the list order models
the order `fs.readdir` reports. -/

inductive FsTree where
  | file (name : String) (content : String)
  | dir (name : String) (children : List FsTree)

def nameOf : FsTree → String
  | .file n _ => n
  | .dir n _ => n

def isDirNamed (n : String) : FsTree → Bool
  | .dir m _ => m == n
  | .file _ _ => false

def isFileNamed (n : String) : FsTree → Bool
  | .file m _ => m == n
  | .dir _ _ => false

/- fileProcessor.js getAllFiles (lines 352-371): depth-first scan in
directory-listing order, directories expanded in place. Returns, for each
file, its path as a segment list together with its content.
`fileEntries` handles one entry, `filesOf` a whole listing. -/
mutual

/-- Files below one directory entry, with their relative paths. -/
def fileEntries : FsTree → List (List String × String)
  | FsTree.file n c => [([n], c)]
  | FsTree.dir n ch => (filesOf ch).map (fun f => (n :: f.1, f.2))

/-- fileProcessor.js getAllFiles (lines 352-371): depth-first scan of a
listing in order, directories expanded in place. -/
def filesOf : List FsTree → List (List String × String)
  | [] => []
  | t :: rest => fileEntries t ++ filesOf rest

end

theorem filesOf_cons_file (n c : String) (rest : List FsTree) :
    filesOf (FsTree.file n c :: rest) = ([n], c) :: filesOf rest := rfl

theorem filesOf_cons_dir (n : String) (ch rest : List FsTree) :
    filesOf (FsTree.dir n ch :: rest) =
      (filesOf ch).map (fun f => (n :: f.1, f.2)) ++ filesOf rest := rfl

/-- Overwrite the content of the first file entry with the given name. -/
def replaceFileNamed (n c : String) : List FsTree → List FsTree
  | [] => []
  | FsTree.file m d :: rest =>
    if m = n then FsTree.file m c :: rest
    else FsTree.file m d :: replaceFileNamed n c rest
  | t :: rest => t :: replaceFileNamed n c rest

/-- Writing one file into a directory tree, the way
`fs.ensureDir(path.dirname(fullPath))` followed by a write stream behaves:
intermediate directories are created on demand, an existing file blocks a
directory component (ensureDir fails, the entry is skipped), an existing
directory blocks a file write (EISDIR, the entry is skipped), and a file
over an existing file overwrites it.  New entries are appended at the end
of the listing. -/
def treeInsert : List FsTree → List String → String → List FsTree
  | ts, [], _ => ts
  | ts, [n], c =>
    if ts.any (isDirNamed n) then ts
    else if ts.any (isFileNamed n) then replaceFileNamed n c ts
    else ts ++ [FsTree.file n c]
  | ts, n :: rest, c =>
    if ts.any (isFileNamed n) then ts
    else if ts.any (isDirNamed n) then
      ts.map (fun t =>
        match t with
        | FsTree.dir m ch => if m = n then FsTree.dir m (treeInsert ch rest c) else FsTree.dir m ch
        | t => t)
    else ts ++ [FsTree.dir n (treeInsert [] rest c)]
theorem filesOf_append (l1 l2 : List FsTree) :
    filesOf (l1 ++ l2) = filesOf l1 ++ filesOf l2 := by
  induction l1 with
  | nil => simp [filesOf, fileEntries]
  | cons t rest ih =>
    cases t with
    | file n c => simp [filesOf, ih]
    | dir n ch => simp [filesOf, ih]

theorem filesOf_replaceFileNamed (n c : String) (ts : List FsTree) :
    ∀ f ∈ filesOf (replaceFileNamed n c ts), f = ([n], c) ∨ f ∈ filesOf ts := by
  induction ts with
  | nil =>
    intro f hf
    exact Or.inr hf
  | cons t rest ih =>
    cases t with
    | file m d =>
      by_cases hm : m = n
      · intro f hf
        rw [show replaceFileNamed n c (FsTree.file m d :: rest) =
            FsTree.file m c :: rest from by simp [replaceFileNamed, hm],
          filesOf_cons_file] at hf
        rcases List.mem_cons.mp hf with h | h
        · exact Or.inl (by rw [h, hm])
        · exact Or.inr (by rw [filesOf_cons_file]; exact List.mem_cons_of_mem _ h)
      · intro f hf
        rw [show replaceFileNamed n c (FsTree.file m d :: rest) =
            FsTree.file m d :: replaceFileNamed n c rest from by simp [replaceFileNamed, hm],
          filesOf_cons_file] at hf
        rcases List.mem_cons.mp hf with h | h
        · exact Or.inr (by rw [filesOf_cons_file, h]; exact List.mem_cons_self _ _)
        · rcases ih f h with h1 | h1
          · exact Or.inl h1
          · exact Or.inr (by rw [filesOf_cons_file]; exact List.mem_cons_of_mem _ h1)
    | dir m ch =>
      intro f hf
      rw [show replaceFileNamed n c (FsTree.dir m ch :: rest) =
          FsTree.dir m ch :: replaceFileNamed n c rest from rfl,
        filesOf_cons_dir] at hf
      rcases List.mem_append.mp hf with h | h
      · exact Or.inr (by rw [filesOf_cons_dir]; exact List.mem_append.mpr (Or.inl h))
      · rcases ih f h with h1 | h1
        · exact Or.inl h1
        · exact Or.inr (by rw [filesOf_cons_dir]; exact List.mem_append.mpr (Or.inr h1))

/-- Membership analysis for the directory-update pass inside `treeInsert`:
a function that leaves every entry alone except directories named `n`,
whose children receive the insertion, only adds the newly inserted file. -/
theorem filesOf_map_update (n : String) (rest : List String) (c : String)
    (φ : FsTree → FsTree)
    (hφ : ∀ t, φ t = t ∨
      ∃ ch, t = FsTree.dir n ch ∧ φ t = FsTree.dir n (treeInsert ch rest c))
    (IH : ∀ ch g, g ∈ filesOf (treeInsert ch rest c) → g = (rest, c) ∨ g ∈ filesOf ch) :
    ∀ ts f, f ∈ filesOf (List.map φ ts) → f = (n :: rest, c) ∨ f ∈ filesOf ts := by
  intro ts
  induction ts with
  | nil => simp [filesOf, fileEntries]
  | cons t ts2 ih2 =>
    intro f hf
    rw [List.map_cons] at hf
    rcases hφ t with heq | ⟨ch, rfl, heq⟩
    · rw [heq] at hf
      cases t with
      | file nm cc =>
        simp only [filesOf, fileEntries] at hf ⊢
        rcases List.mem_cons.mp hf with h | h
        · exact Or.inr (by simp [h])
        · rcases ih2 f h with h1 | h1
          · exact Or.inl h1
          · exact Or.inr (by simp [h1])
      | dir nm ch2 =>
        simp only [filesOf, fileEntries] at hf ⊢
        rcases List.mem_append.mp hf with h | h
        · exact Or.inr (List.mem_append.mpr (Or.inl h))
        · rcases ih2 f h with h1 | h1
          · exact Or.inl h1
          · exact Or.inr (List.mem_append.mpr (Or.inr h1))
    · rw [heq] at hf
      simp only [filesOf, fileEntries] at hf ⊢
      rcases List.mem_append.mp hf with h | h
      · rcases List.mem_map.mp h with ⟨g, hg, rfl⟩
        rcases IH ch g hg with h1 | h1
        · exact Or.inl (by simp [h1])
        · exact Or.inr (List.mem_append.mpr (Or.inl (List.mem_map.mpr ⟨g, h1, rfl⟩)))
      · rcases ih2 f h with h1 | h1
        · exact Or.inl h1
        · exact Or.inr (List.mem_append.mpr (Or.inr h1))

/-- Every file present after a `treeInsert` is either the inserted file or
was already present. -/
theorem filesOf_treeInsert (segs : List String) :
    ∀ (ts : List FsTree) (c : String) (f : List String × String),
      f ∈ filesOf (treeInsert ts segs c) → f = (segs, c) ∨ f ∈ filesOf ts := by
  induction segs with
  | nil =>
    intro ts c f hf
    simp only [treeInsert] at hf
    exact Or.inr hf
  | cons n rest ih =>
    intro ts c f hf
    cases rest with
    | nil =>
      simp only [treeInsert] at hf
      by_cases hd : ts.any (isDirNamed n)
      · rw [if_pos hd] at hf
        exact Or.inr hf
      · rw [if_neg hd] at hf
        by_cases hfile : ts.any (isFileNamed n)
        · rw [if_pos hfile] at hf
          exact filesOf_replaceFileNamed n c ts f hf
        · rw [if_neg hfile, filesOf_append] at hf
          rcases List.mem_append.mp hf with h | h
          · exact Or.inr h
          · simp only [filesOf, fileEntries] at h
            rcases List.mem_cons.mp h with h1 | h1
            · exact Or.inl h1
            · simp [filesOf, fileEntries] at h1
    | cons m rest2 =>
      simp only [treeInsert] at hf
      by_cases hfile : ts.any (isFileNamed n)
      · rw [if_pos hfile] at hf
        exact Or.inr hf
      · rw [if_neg hfile] at hf
        by_cases hd : ts.any (isDirNamed n)
        · rw [if_pos hd] at hf
          refine filesOf_map_update n (m :: rest2) c _ ?_ (fun ch g hg => ih ch c g hg) ts f hf
          intro t
          cases t with
          | file a b => exact Or.inl rfl
          | dir a ch2 =>
            by_cases ha : a = n
            · subst ha
              exact Or.inr ⟨ch2, rfl, by simp⟩
            · exact Or.inl (by simp [ha])
        · rw [if_neg hd, filesOf_append] at hf
          rcases List.mem_append.mp hf with h | h
          · exact Or.inr h
          · simp only [filesOf, fileEntries, List.append_nil] at h
            rcases List.mem_map.mp h with ⟨g, hg, rfl⟩
            rcases ih [] c g hg with h1 | h1
            · exact Or.inl (by simp [h1])
            · simp [filesOf, fileEntries] at h1

/-! ## The fileProcessor extraction pipeline -/

/-- The per-build workspace root (the `content` directory inside the
build's temp directory) as an absolute segment list.  Its concrete value
is irrelevant to every check performed against it. -/
def wsBase : List String := ["app", "temp", "build-1", "content"]

/-- One file entry of the uploaded archive (`entry.path` and the bytes the
entry decompresses to, whose length models `stat.size`).  Directory
entries only trigger `fs.ensureDir` and are not modelled separately:
`treeInsert` creates directories on demand. -/
structure ZEntry where
  path : String
  content : String
deriving DecidableEq

/-- The claim-side notion of escape: strip leading separators, resolve
`.`/`..` segments against the workspace root, and test whether the result
is still a descendant of the root. -/
def escapesWorkspaceRoot (p : String) : Bool :=
  !(descendsFrom wsBase (resolveSegs wsBase (segsOf (stripLeadingSeps p))))

/-- Where the write stream for one entry lands, relative to the workspace
root, after `path.join(extractDir, safePath)` is normalised (extractZipFile
lines 114-121).  `none` models a failed write: a target at or above the
workspace root names an existing directory (the workspace itself or an
ancestor of it), so the write stream fails with EISDIR and the entry is
skipped — per-entry errors are caught and swallowed (lines 141-144). -/
def writeTargetSegs (p : String) : Option (List String) :=
  let segs := normalizeRelSegs (segsOf (sanitizePath p))
  if segs.isEmpty then none
  else if segs.headD "" = ".." then none
  else some segs

/-- The extraction loop of extractZipFile (lines 100-151): each file entry
is written at its sanitized path, and entry-level failures are skipped. -/
def extractTree (entries : List ZEntry) : List FsTree :=
  entries.foldl
    (fun t e =>
      match writeTargetSegs e.path with
      | some segs => treeInsert t segs e.content
      | none => t) []

/-- The post-extraction validation loop of extractZipFile (lines 157-178):
for every file found on disk below the workspace root, re-check the
relative path with sanitizeAndValidatePath, the size against maxFileSize,
and the extension blacklist. -/
def validateFiles : List (List String × String) → Except String Unit
  | [] => Except.ok ()
  | (segs, c) :: rest =>
    let rel := joinSegs segs
    let pc := sanitizeAndValidatePath wsBase rel
    if pc.safe = false then Except.error ("Unsafe path detected: " ++ rel)
    else if c.length > maxFileSize then
      Except.error ("File too large: " ++ rel ++ " (" ++ toString c.length ++ " bytes)")
    else if isAllowedFile pc.path = false then
      Except.error ("File type not allowed: " ++ pc.path)
    else validateFiles rest

/-- fileProcessor.js extractZipFile (lines 93-190): extract every entry at
its sanitized target, then validate the files found on disk; any error is
wrapped by the outer catch (line 188). -/
def extractZipFile (entries : List ZEntry) : Except String (List FsTree) :=
  let tree := extractTree entries
  match validateFiles (filesOf tree) with
  | Except.ok _ => Except.ok tree
  | Except.error m =>
    Except.error ("ZIP extraction failed: " ++ m ++
      ". Please ensure your ZIP file is valid and not corrupted.")

/-- Whether a directory tree contains, at any depth, a file with the
`.html` extension (handleNestedStructure line 294). -/
def hasHtmlDeep (ts : List FsTree) : Bool :=
  (filesOf ts).any (fun f => extnameLower (joinSegs f.1) == ".html")

/-- The move loop of handleNestedStructure (lines 300-308): children of
the wrapper directory are moved to the workspace root one by one.
`fs.move` fails when the destination exists; the only possible existing
destination is the wrapper directory itself, so a child carrying the
wrapper's name throws, the outer catch (lines 315-318) swallows the error
and the flattening stops part-way.  Returns the children moved out and,
on failure, the children still inside the wrapper. -/
def moveLoop (dname : String) : List FsTree → List FsTree × Option (List FsTree)
  | [] => ([], none)
  | t :: rest =>
    if nameOf t = dname then ([], some (t :: rest))
    else
      match moveLoop dname rest with
      | (moved, r) => (t :: moved, r)

/-- fileProcessor.js handleNestedStructure (lines 283-319). -/
def handleNestedStructure (root : List FsTree) : List FsTree :=
  match root with
  | [FsTree.dir dname ch] =>
    if hasHtmlDeep ch then
      match moveLoop dname ch with
      | (moved, none) => moved
      | (moved, some remaining) => moved ++ [FsTree.dir dname remaining]
    else root
  | _ => root

/-- fileProcessor.js validateExtractedContent (lines 196-245).
validateHtmlFile (lines 251-276) only logs warnings, so it is modelled as
always succeeding; the dynamic list of found extensions appended to the
no-HTML message is elided. -/
def validateExtractedContent (root : List FsTree) : Except String Unit :=
  let files := filesOf root
  if files.length = 0 then
    Except.error ("Content validation failed: No files found in ZIP archive. " ++
      "Ensure your ZIP contains at least one .html file and only allowed file types.")
  else if (files.filter (fun f => extnameLower (joinSegs f.1) == ".html")).length = 0 then
    Except.error ("Content validation failed: No HTML files found in ZIP archive. " ++
      "Ensure your ZIP contains at least one .html file and only allowed file types.")
  else Except.ok ()

/-- fileProcessor.js ensureIndexHtml (lines 325-345).  The existence test
`fs.pathExists(path.join(extractDir, 'index.html'))` is true for any
entry of that name, file or directory; the copied file is a new entry at
the workspace root, and the source file stays in place. -/
def ensureIndexHtml (root : List FsTree) : Except String (List FsTree) :=
  if root.any (fun t => nameOf t == "index.html") then Except.ok root
  else
    match (filesOf root).filter (fun f => extnameLower (joinSegs f.1) == ".html") with
    | [] => Except.error "No HTML files found to use as index.html"
    | f :: _ => Except.ok (root ++ [FsTree.file "index.html" f.2])

/-- The three accepted ZIP signatures (fileProcessor.js lines 75-79). -/
def zipSignatures : List (List Nat) :=
  [[0x50, 0x4B, 0x03, 0x04], [0x50, 0x4B, 0x05, 0x06], [0x50, 0x4B, 0x07, 0x08]]

/-- fileProcessor.js validateZipBuffer (lines 64-85); the buffer is the
list of its bytes. -/
def validateZipBuffer (buf : List Nat) : Except String Unit :=
  if buf.length = 0 then Except.error "Empty ZIP file provided"
  else if buf.length > maxTotalSize then
    Except.error ("ZIP file too large. Maximum size is " ++
      toString (maxTotalSize / (1024 * 1024)) ++ "MB")
  else if !(zipSignatures.any (fun sig => sig.take (buf.take 4).length == buf.take 4)) then
    Except.error "Invalid ZIP file format"
  else Except.ok ()

/-- fileProcessor.js processZipFile (lines 19-58).  The second component
records whether the per-build workspace directory still exists when the
call returns: the buffer is validated before `fs.ensureDir` creates the
build directory (lines 22-29), so an invalid or oversized upload leaves
nothing on disk regardless of cleanup; after a later failure the
on-error cleanup (line 51) removes the directory when it succeeds
(`cleanupOk`), and a cleanup failure is swallowed (lines 52-54). -/
def processZipFile (buf : List Nat) (entries : List ZEntry) (cleanupOk : Bool) :
    Except String (List FsTree) × Bool :=
  match validateZipBuffer buf with
  | Except.error m => (Except.error m, false)
  | Except.ok _ =>
    let res : Except String (List FsTree) := do
      let tree ← extractZipFile entries
      let tree2 := handleNestedStructure tree
      let _ ← validateExtractedContent tree2
      ensureIndexHtml tree2
    match res with
    | Except.ok t => (Except.ok t, true)
    | Except.error m => (Except.error m, !cleanupOk)

/-! ## Claims C1 and C2 -/

/-- Entries whose sanitized path is tame, within the size cap and with an
allowed extension. -/
def tameEntry (e : ZEntry) : Bool :=
  tameRel (sanitizePath e.path) && decide (e.content.length ≤ maxFileSize) &&
    isAllowedFile (sanitizePath e.path)

theorem writeTargetSegs_tame {p : String} (h : tameRel (sanitizePath p) = true) :
    writeTargetSegs p = some (segsOf (sanitizePath p)) := by
  have hnorm : normalizeRelSegs (segsOf (sanitizePath p)) = segsOf (sanitizePath p) :=
    normalizeRelSegs_good _ (tameSegs_mem h)
  have hne : ¬ (segsOf (sanitizePath p)).isEmpty = true := by
    simp [List.isEmpty_iff, segsOf_ne_nil (sanitizePath p)]
  have hhead : ¬ (segsOf (sanitizePath p)).headD "" = ".." := by
    cases hs : segsOf (sanitizePath p) with
    | nil => exact absurd hs (segsOf_ne_nil (sanitizePath p))
    | cons a l =>
      have hg : goodSeg a = true := tameSegs_mem h a (by rw [hs]; simp)
      simpa using goodSeg_ne_ddot hg
  simp only [writeTargetSegs, hnorm]
  rw [if_neg hne, if_neg hhead]

theorem filesOf_extractTree (entries : List ZEntry) :
    ∀ f ∈ filesOf (extractTree entries),
      ∃ e ∈ entries, writeTargetSegs e.path = some f.1 ∧ f.2 = e.content := by
  suffices haux : ∀ (l : List ZEntry) (t0 : List FsTree) (f : List String × String),
      f ∈ filesOf (l.foldl
        (fun t e =>
          match writeTargetSegs e.path with
          | some segs => treeInsert t segs e.content
          | none => t) t0) →
      (∃ e ∈ l, writeTargetSegs e.path = some f.1 ∧ f.2 = e.content) ∨ f ∈ filesOf t0 by
    intro f hf
    rcases haux entries [] f hf with h | h
    · exact h
    · simp [filesOf, fileEntries] at h
  intro l
  induction l with
  | nil =>
    intro t0 f hf
    exact Or.inr hf
  | cons e es ih =>
    intro t0 f hf
    simp only [List.foldl_cons] at hf
    rcases ih _ f hf with h | h
    · rcases h with ⟨e2, he2, hw, hc⟩
      exact Or.inl ⟨e2, List.mem_cons_of_mem _ he2, hw, hc⟩
    · cases hw : writeTargetSegs e.path with
      | none =>
        rw [hw] at h
        exact Or.inr h
      | some segs =>
        rw [hw] at h
        rcases filesOf_treeInsert segs t0 e.content f h with h1 | h1
        · refine Or.inl ⟨e, by simp, ?_, ?_⟩
          · rw [hw, h1]
          · rw [h1]
        · exact Or.inr h1

theorem validateFiles_ok (fs : List (List String × String))
    (h : ∀ f ∈ fs, tameRel (joinSegs f.1) = true ∧ f.2.length ≤ maxFileSize ∧
      isAllowedFile (joinSegs f.1) = true) :
    validateFiles fs = Except.ok () := by
  induction fs with
  | nil => rfl
  | cons f rest ih =>
    obtain ⟨segs, c⟩ := f
    obtain ⟨ht0, hsize0, hallow0⟩ := h (segs, c) (by simp)
    have ht : tameRel (joinSegs segs) = true := ht0
    have hsize : c.length ≤ maxFileSize := hsize0
    have hallow : isAllowedFile (joinSegs segs) = true := hallow0
    have hfix : sanitizePath (joinSegs segs) = joinSegs segs := tame_sanitizePath_id ht
    have hsafe : isPathSafe wsBase (sanitizePath (joinSegs segs)) = true := by
      rw [hfix]
      exact tame_isPathSafe wsBase ht
    simp only [validateFiles, sanitizeAndValidatePath, hsafe]
    rw [if_neg (by simp), if_neg (by simp; omega), if_neg (by simp [hfix, hallow])]
    exact ih (fun g hg => h g (List.mem_cons_of_mem _ hg))

/-- Claim C1, corrected.  An archive entry whose path escapes the
workspace root does not make extraction fail: extractZipFile sanitizes
each entry path and extracts the entry inside the workspace at the
sanitized path.  For any archive all of whose entries sanitize to tame
in-workspace paths within the caps, extraction succeeds, and every file
on disk afterwards sits at the sanitized path of one of the entries with
that entry's content. -/
theorem claim_C1_amended (entries : List ZEntry)
    (h : ∀ e ∈ entries, tameEntry e = true) :
    ∃ t, extractZipFile entries = Except.ok t ∧
      ∀ f ∈ filesOf t, ∃ e ∈ entries,
        joinSegs f.1 = sanitizePath e.path ∧ f.2 = e.content := by
  have hparts : ∀ e ∈ entries, tameRel (sanitizePath e.path) = true ∧
      e.content.length ≤ maxFileSize ∧ isAllowedFile (sanitizePath e.path) = true := by
    intro e he
    have := h e he
    simp only [tameEntry, Bool.and_eq_true, decide_eq_true_eq] at this
    exact ⟨this.1.1, this.1.2, this.2⟩
  have hfiles : ∀ f ∈ filesOf (extractTree entries), ∃ e ∈ entries,
      f.1 = segsOf (sanitizePath e.path) ∧ f.2 = e.content := by
    intro f hf
    rcases filesOf_extractTree entries f hf with ⟨e, he, hw, hc⟩
    rw [writeTargetSegs_tame (hparts e he).1] at hw
    exact ⟨e, he, by injection hw with h1; exact h1.symm, hc⟩
  refine ⟨extractTree entries, ?_, ?_⟩
  · have hok : validateFiles (filesOf (extractTree entries)) = Except.ok () := by
      apply validateFiles_ok
      intro f hf
      rcases hfiles f hf with ⟨e, he, h1, h2⟩
      obtain ⟨ht, hsize, hallow⟩ := hparts e he
      rw [h1, h2, joinSegs_segsOf]
      exact ⟨ht, hsize, hallow⟩
    simp [extractZipFile, hok]
  · intro f hf
    rcases hfiles f hf with ⟨e, he, h1, h2⟩
    exact ⟨e, he, by rw [h1, joinSegs_segsOf], h2⟩

/-- A witness archive for the amended claim C1: the escaping entry
`../../etc/passwd` together with an index document. -/
def c1Entries : List ZEntry :=
  [{ path := "../../etc/passwd", content := "root:x:0:0" },
   { path := "index.html", content := "<html></html>" }]

/-- A syntactically valid ZIP buffer head. -/
def c1Buf : List Nat := [0x50, 0x4B, 0x03, 0x04]

/-- The workspace content produced for `c1Entries`. -/
def c1Tree : List FsTree :=
  [FsTree.dir "etc" [FsTree.file "passwd" "root:x:0:0"],
   FsTree.file "index.html" "<html></html>"]

theorem claim_C1_amended_witness :
    (∀ e ∈ c1Entries, tameEntry e = true) ∧
    ∃ t, extractZipFile c1Entries = Except.ok t ∧
      ∀ f ∈ filesOf t, ∃ e ∈ c1Entries,
        joinSegs f.1 = sanitizePath e.path ∧ f.2 = e.content :=
  ⟨by decide, claim_C1_amended c1Entries (by decide)⟩

/-- Claim C1, counterexample to the claim as stated: the entry
`../../etc/passwd` resolves outside the workspace root, yet the whole
processZipFile pipeline succeeds instead of failing, the extracted file
persists inside the workspace at the sanitized path `etc/passwd`, and the
workspace directory is retained. -/
theorem claim_C1_counterexample :
    escapesWorkspaceRoot "../../etc/passwd" = true ∧
    processZipFile c1Buf c1Entries true = (Except.ok c1Tree, true) ∧
    (["etc", "passwd"], "root:x:0:0") ∈ filesOf c1Tree := by
  refine ⟨by decide, rfl, List.Mem.head _⟩

/-- Claim C2: an uploaded archive buffer strictly larger than the 50 MiB
cap makes processZipFile fail with the size-specific message, and no
workspace directory for the build is left on disk (the size check runs
before the build directory is created, so this holds even if cleanup
would fail). -/
theorem claim_C2 (buf : List Nat) (entries : List ZEntry) (cleanupOk : Bool)
    (h : maxTotalSize < buf.length) :
    processZipFile buf entries cleanupOk =
      (Except.error "ZIP file too large. Maximum size is 50MB", false) := by
  have h0 : ¬ buf.length = 0 := by
    intro h0
    rw [h0] at h
    exact absurd h (by simp)
  simp only [processZipFile, validateZipBuffer, if_neg h0,
    if_pos (show buf.length > maxTotalSize from h)]
  rfl

theorem claim_C2_witness :
    processZipFile (List.replicate (maxTotalSize + 1) 0) [] true =
      (Except.error "ZIP file too large. Maximum size is 50MB", false) :=
  claim_C2 _ [] true (by simp)

/-! ## Build phases and the pipeline coordinator (src/unnamed/part_000) -/

/-- BUILD_PHASES (part_000 lines 16-26). -/
inductive Phase where
  | uploading | extracting | validating | generating
  | installing | building | distributing | completed | failed
deriving DecidableEq

/-- Position of a phase in the defined order; FAILED sits after every
other phase, matching "any non-terminal phase may transition directly to
FAILED". -/
def phaseIdx : Phase → Nat
  | .uploading => 0
  | .extracting => 1
  | .validating => 2
  | .generating => 3
  | .installing => 4
  | .building => 5
  | .distributing => 6
  | .completed => 7
  | .failed => 8

/-- Observable events of one run of buildProcess: a status-map write via
updateBuildStatus (with the optional error detail), the on-error cleanup
call, and the log line emitted when that cleanup itself fails. -/
inductive BuildEv where
  | statusWrite (p : Phase) (err : Option String)
  | cleanupRun
  | cleanupFailLog
deriving DecidableEq

/-- Environment of one buildProcess run: for each of the three awaited
pipeline steps, `none` when it resolves and `some msg` when it rejects
with that error message; and whether the on-error cleanup succeeds. -/
structure PipeEnv where
  zipRes : Option String
  createRes : Option String
  buildRes : Option String
  cleanupOk : Bool

/-- The catch branch of buildProcess (part_000 lines 225-236): write the
FAILED record carrying the triggering message, then try cleanup; a
cleanup failure is only logged. -/
def failTail (e : PipeEnv) (m : String) : List BuildEv :=
  [BuildEv.statusWrite Phase.failed (some m), BuildEv.cleanupRun] ++
    (if e.cleanupOk then [] else [BuildEv.cleanupFailLog])

/-- buildProcess (part_000 lines 180-236): the sequence of observable
events, following the source order of updateBuildStatus calls and the
three awaited steps processZipFile, createElectronApp and
buildExecutable. -/
def buildProcessEvents (e : PipeEnv) : List BuildEv :=
  [BuildEv.statusWrite Phase.uploading none, BuildEv.statusWrite Phase.extracting none] ++
  (match e.zipRes with
   | some m => failTail e m
   | none =>
     [BuildEv.statusWrite Phase.validating none, BuildEv.statusWrite Phase.generating none] ++
     (match e.createRes with
      | some m => failTail e m
      | none =>
        [BuildEv.statusWrite Phase.installing none, BuildEv.statusWrite Phase.building none] ++
        (match e.buildRes with
         | some m => failTail e m
         | none =>
           [BuildEv.statusWrite Phase.distributing none,
            BuildEv.statusWrite Phase.completed none])))

/-- The phases written to the status tracker, in order. -/
def phaseWrites (e : PipeEnv) : List Phase :=
  (buildProcessEvents e).filterMap (fun ev =>
    match ev with
    | BuildEv.statusWrite p _ => some p
    | _ => none)

/-- The records written to the status tracker, in order. -/
def statusWrites (e : PipeEnv) : List (Phase × Option String) :=
  (buildProcessEvents e).filterMap (fun ev =>
    match ev with
    | BuildEv.statusWrite p err => some (p, err)
    | _ => none)

/-- The message of the first failing step, if any; later steps do not run
after a failure. -/
def firstFailure (e : PipeEnv) : Option String :=
  match e.zipRes with
  | some m => some m
  | none =>
    match e.createRes with
    | some m => some m
    | none => e.buildRes

/-- What buildProcess does after the cleanup call in its catch branch:
nothing when cleanup succeeds, one log line when it fails. -/
def cleanupTail (e : PipeEnv) : List BuildEv :=
  if e.cleanupOk then [] else [BuildEv.cleanupFailLog]

theorem phaseWrites_pairwise (e : PipeEnv) :
    (phaseWrites e).Pairwise (fun a b => phaseIdx a ≤ phaseIdx b) := by
  obtain ⟨z, cr, br, cl⟩ := e
  cases z <;> cases cr <;> cases br <;> cases cl <;>
    simp [phaseWrites, buildProcessEvents, failTail, List.filterMap_cons] <;> decide

/-- Claim C3: for every run of the coordinator, the sequence of phases
written to the status tracker for one build identifier is monotonically
non-decreasing along the phase order (with FAILED at the top, reachable
by a direct jump), so a status read at a later time never observes an
earlier phase than a read at an earlier time; moreover FAILED is
terminal, appearing only as the last write. -/
theorem claim_C3 :
    (∀ (e : PipeEnv) (i j : Nat) (hi : i < (phaseWrites e).length)
        (hj : j < (phaseWrites e).length), i ≤ j →
        phaseIdx ((phaseWrites e).get ⟨i, hi⟩) ≤ phaseIdx ((phaseWrites e).get ⟨j, hj⟩)) ∧
    (∀ e : PipeEnv, Phase.failed ∉ (phaseWrites e).dropLast) := by
  constructor
  · intro e i j hi hj hij
    rcases Nat.lt_or_ge i j with hlt | hge
    · exact List.pairwise_iff_get.mp (phaseWrites_pairwise e) ⟨i, hi⟩ ⟨j, hj⟩ hlt
    · have : i = j := Nat.le_antisymm hij hge
      subst this
      exact Nat.le_refl _
  · intro e
    obtain ⟨z, cr, br, cl⟩ := e
    cases z <;> cases cr <;> cases br <;> cases cl <;>
      simp [phaseWrites, buildProcessEvents, failTail, List.filterMap_cons]

theorem claim_C3_witness :
    phaseIdx ((phaseWrites ⟨none, none, none, true⟩).get ⟨0, by decide⟩) ≤
      phaseIdx ((phaseWrites ⟨none, none, none, true⟩).get ⟨5, by decide⟩) :=
  claim_C3.1 ⟨none, none, none, true⟩ 0 5 (by decide) (by decide) (by decide)

/-- Claim C7: when a pipeline step fails with message `m`, buildProcess
writes the terminal FAILED record carrying `m` verbatim, immediately
before running cleanup; everything after the cleanup call is at most a
log line, never a status write, so a cleanup failure neither escalates
nor overwrites the FAILED record: the last status write remains
`(failed, some m)` whether or not cleanup succeeds. -/
theorem claim_C7 (e : PipeEnv) (m : String) (h : firstFailure e = some m) :
    (∃ pre, buildProcessEvents e =
      pre ++ [BuildEv.statusWrite Phase.failed (some m), BuildEv.cleanupRun] ++ cleanupTail e) ∧
    (statusWrites e).getLast? = some (Phase.failed, some m) ∧
    (∀ ev ∈ cleanupTail e, ∀ p err, ev ≠ BuildEv.statusWrite p err) := by
  obtain ⟨z, cr, br, cl⟩ := e
  cases z with
  | some mz =>
    simp only [firstFailure] at h
    injection h with h
    subst h
    refine ⟨⟨[BuildEv.statusWrite Phase.uploading none,
      BuildEv.statusWrite Phase.extracting none], ?_⟩, ?_, ?_⟩
    · simp [buildProcessEvents, failTail, cleanupTail]
    · cases cl <;> simp [statusWrites, buildProcessEvents, failTail, List.filterMap_cons]
    · cases cl <;> simp [cleanupTail]
  | none =>
    cases cr with
    | some mc =>
      simp only [firstFailure] at h
      injection h with h
      subst h
      refine ⟨⟨[BuildEv.statusWrite Phase.uploading none,
        BuildEv.statusWrite Phase.extracting none,
        BuildEv.statusWrite Phase.validating none,
        BuildEv.statusWrite Phase.generating none], ?_⟩, ?_, ?_⟩
      · simp [buildProcessEvents, failTail, cleanupTail]
      · cases cl <;> simp [statusWrites, buildProcessEvents, failTail, List.filterMap_cons]
      · cases cl <;> simp [cleanupTail]
    | none =>
      cases br with
      | some mb =>
        simp only [firstFailure] at h
        injection h with h
        subst h
        refine ⟨⟨[BuildEv.statusWrite Phase.uploading none,
          BuildEv.statusWrite Phase.extracting none,
          BuildEv.statusWrite Phase.validating none,
          BuildEv.statusWrite Phase.generating none,
          BuildEv.statusWrite Phase.installing none,
          BuildEv.statusWrite Phase.building none], ?_⟩, ?_, ?_⟩
        · simp [buildProcessEvents, failTail, cleanupTail]
        · cases cl <;> simp [statusWrites, buildProcessEvents, failTail, List.filterMap_cons]
        · cases cl <;> simp [cleanupTail]
      | none =>
        simp [firstFailure] at h

theorem claim_C7_witness :
    (∃ pre, buildProcessEvents ⟨some "boom", none, none, false⟩ =
      pre ++ [BuildEv.statusWrite Phase.failed (some "boom"), BuildEv.cleanupRun] ++
        cleanupTail ⟨some "boom", none, none, false⟩) ∧
    (statusWrites ⟨some "boom", none, none, false⟩).getLast? =
      some (Phase.failed, some "boom") ∧
    (∀ ev ∈ cleanupTail ⟨some "boom", none, none, false⟩,
      ∀ p err, ev ≠ BuildEv.statusWrite p err) :=
  claim_C7 ⟨some "boom", none, none, false⟩ "boom" rfl

/-! ## Dependency cache (electronBuilder.js) -/

/-- File-system side effects of ensureCachedNodeModules, in source
order: the npm install into the fresh temp directory (line 327), removal
of the old cache when present (lines 334-336), the move promoting the
temp install to the cache location (line 339), the hash write (line 342)
and the temp-directory cleanup (line 345). -/
inductive CacheOp where
  | npmInstall | removeOldCache | movePromote | writeHash | removeTemp
deriving DecidableEq

/-- Cache state on disk: whether the cached node_modules directory
exists, and the (trimmed) content of the hash file if present. -/
structure CacheState where
  nmCache : Bool
  hashFile : Option String
deriving DecidableEq

/-- electronBuilder.js ensureCachedNodeModules (lines 301-354),
parameterised by the content-hash function (md5 in the source; the
claims only need that byte-identical manifests hash identically). -/
def ensureCachedNodeModules (hashFn : String → String) (manifest : String)
    (s : CacheState) : CacheState × List CacheOp :=
  let packageHash := hashFn manifest
  if s.nmCache && (s.hashFile == some packageHash) then (s, [])
  else
    ({ nmCache := true, hashFile := some packageHash },
      CacheOp.npmInstall ::
        ((if s.nmCache then [CacheOp.removeOldCache] else []) ++
          [CacheOp.movePromote, CacheOp.writeHash, CacheOp.removeTemp]))

/-- Claim C4: EnsureCache is idempotent on manifest content.  When the
manifest hash equals the stored hash and the cached directory exists,
nothing is installed or promoted and the state is unchanged; from any
other state, two submissions with byte-identical manifests perform
exactly one install and one promotion in total (the second call is a
no-op on a warm cache), the fresh temp install happens before the
promotion move, and when an old cache existed its removal happens before
the move (remove-then-move). -/
theorem claim_C4 (hashFn : String → String) (m : String) (s : CacheState) :
    (s.nmCache = true → s.hashFile = some (hashFn m) →
      ensureCachedNodeModules hashFn m s = (s, [])) ∧
    (¬(s.nmCache = true ∧ s.hashFile = some (hashFn m)) →
      ((((ensureCachedNodeModules hashFn m s).2 ++
          (ensureCachedNodeModules hashFn m (ensureCachedNodeModules hashFn m s).1).2).count
            CacheOp.npmInstall = 1 ∧
        ((ensureCachedNodeModules hashFn m s).2 ++
          (ensureCachedNodeModules hashFn m (ensureCachedNodeModules hashFn m s).1).2).count
            CacheOp.movePromote = 1) ∧
       ensureCachedNodeModules hashFn m (ensureCachedNodeModules hashFn m s).1 =
         ((ensureCachedNodeModules hashFn m s).1, []) ∧
       (ensureCachedNodeModules hashFn m s).2.indexOf CacheOp.npmInstall <
         (ensureCachedNodeModules hashFn m s).2.indexOf CacheOp.movePromote ∧
       (s.nmCache = true →
         (ensureCachedNodeModules hashFn m s).2.indexOf CacheOp.removeOldCache <
           (ensureCachedNodeModules hashFn m s).2.indexOf CacheOp.movePromote))) := by
  constructor
  · intro h1 h2
    simp [ensureCachedNodeModules, h1, h2]
  · intro hcond
    have hmiss : (s.nmCache && (s.hashFile == some (hashFn m))) = false := by
      cases hn : s.nmCache with
      | false => simp
      | true =>
        have : ¬ s.hashFile = some (hashFn m) := fun h => hcond ⟨hn, h⟩
        simp [beq_eq_false_iff_ne, this]
    have h1 : ensureCachedNodeModules hashFn m s =
        ({ nmCache := true, hashFile := some (hashFn m) },
          CacheOp.npmInstall ::
            ((if s.nmCache then [CacheOp.removeOldCache] else []) ++
              [CacheOp.movePromote, CacheOp.writeHash, CacheOp.removeTemp])) := by
      simp only [ensureCachedNodeModules, hmiss]
      simp
    have h2 : ensureCachedNodeModules hashFn m
        ({ nmCache := true, hashFile := some (hashFn m) } : CacheState) =
        ({ nmCache := true, hashFile := some (hashFn m) }, []) := by
      simp [ensureCachedNodeModules]
    rw [h1]
    simp only [h2]
    cases hn : s.nmCache <;> simp_all

theorem claim_C4_witness :
    (((ensureCachedNodeModules id "pkg" ⟨false, none⟩).2 ++
        (ensureCachedNodeModules id "pkg"
          (ensureCachedNodeModules id "pkg" ⟨false, none⟩).1).2).count
          CacheOp.npmInstall = 1 ∧
      ((ensureCachedNodeModules id "pkg" ⟨false, none⟩).2 ++
        (ensureCachedNodeModules id "pkg"
          (ensureCachedNodeModules id "pkg" ⟨false, none⟩).1).2).count
          CacheOp.movePromote = 1) ∧
    ensureCachedNodeModules id "pkg" (ensureCachedNodeModules id "pkg" ⟨false, none⟩).1 =
      ((ensureCachedNodeModules id "pkg" ⟨false, none⟩).1, []) ∧
    (ensureCachedNodeModules id "pkg" ⟨false, none⟩).2.indexOf CacheOp.npmInstall <
      (ensureCachedNodeModules id "pkg" ⟨false, none⟩).2.indexOf CacheOp.movePromote ∧
    ((⟨false, none⟩ : CacheState).nmCache = true →
      (ensureCachedNodeModules id "pkg" ⟨false, none⟩).2.indexOf CacheOp.removeOldCache <
        (ensureCachedNodeModules id "pkg" ⟨false, none⟩).2.indexOf CacheOp.movePromote) :=
  (claim_C4 id "pkg" ⟨false, none⟩).2 (by simp)

/-! ## Dependency installation with fallback (electronBuilder.js) -/

/-- electronBuilder.js installDependencies (lines 360-391): the cache
path (ensureCachedNodeModules, then fs.copy of the cached node_modules
into the build's app directory) wrapped in a try/catch whose handler
performs a plain `npm install` inside the app directory.  `ensureOk`,
`copyOk` and `npmOk` tell whether each step succeeds; the second
component records whether the fallback install ran. -/
def installDependencies (ensureOk copyOk npmOk : Bool) (npmErrMsg : String) :
    Except String Unit × Bool :=
  if ensureOk && copyOk then (Except.ok (), false)
  else if npmOk then (Except.ok (), true)
  else
    (Except.error ("Failed to install dependencies: " ++ npmErrMsg ++
      ". Please check your internet connection and ensure npm is properly configured."),
     true)

/-- Claim C5: when the cache path fails (either ensuring the shared cache
or copying it into the app directory), installDependencies falls back to
a direct uncached npm install in the app directory instead of failing,
and it raises an error exactly when the cache path failed and the
fallback install failed too. -/
theorem claim_C5 (ensureOk copyOk npmOk : Bool) (npmErrMsg : String) :
    ((installDependencies ensureOk copyOk npmOk npmErrMsg).2 = true ↔
      ¬(ensureOk = true ∧ copyOk = true)) ∧
    ((∃ err, (installDependencies ensureOk copyOk npmOk npmErrMsg).1 = Except.error err) ↔
      (¬(ensureOk = true ∧ copyOk = true) ∧ npmOk = false)) := by
  cases ensureOk <;> cases copyOk <;> cases npmOk <;>
    simp [installDependencies]

/-! ## Executable build and artifact search (electronBuilder.js) -/

/-- findBuiltExecutableInDirectory (lines 408-443): recursive search of a
directory restricted to the `.exe` extension, returning artifact paths;
`none` models a directory that does not exist (pathExists false, empty
result). -/
def exeFilesIn : Option (List FsTree) → List (List String)
  | none => []
  | some ts =>
    ((filesOf ts).map (fun f => f.1)).filter
      (fun segs => extnameLower (joinSegs segs) == ".exe")

/-- The error buildExecutable raises when the build subprocess exits
non-zero (line 124), wrapped by the outer catch (line 179). -/
def buildCmdFailedMsg (m : String) : String :=
  "Failed to build executable: Build command failed: " ++
    (m ++ ". This could be due to missing dependencies, Windows build tools not available, or insufficient system resources.")

/-- The error buildExecutable raises when both artifact searches come up
empty (line 163), wrapped by the outer catch (line 179). -/
def noArtifactsMsg : String :=
  "Failed to build executable: No executable files found after build. The electron-builder process may have failed silently or the build output was not generated correctly."

/-- electronBuilder.js buildExecutable (lines 89-181).  `exitRes` is the
subprocess outcome (`some m` = non-zero exit with message `m`),
`localDist` the app's dist directory, `parentDist` the fallback
`../dist` directory.  Returns the outcome (on success, the artifact file
names placed in the per-build output directory) together with the
`fs.copy` operations performed: source path and destination file name —
copies, never moves, so the search directories are left intact. -/
def buildExecutable (exitRes : Option String)
    (localDist parentDist : Option (List FsTree)) :
    Except String (List String) × List (List String × String) :=
  match exitRes with
  | some m => (Except.error (buildCmdFailedMsg m), [])
  | none =>
    let builtFiles := exeFilesIn localDist
    if builtFiles.isEmpty then
      let parentFiles := exeFilesIn parentDist
      if parentFiles.isEmpty then (Except.error noArtifactsMsg, [])
      else
        (Except.ok (parentFiles.map (fun f => f.getLastD "")),
         parentFiles.map (fun f => (f, f.getLastD "")))
    else
      (Except.ok (builtFiles.map (fun f => f.getLastD "")),
       builtFiles.map (fun f => (f, f.getLastD "")))

theorem string_data_append (a b : String) : (a ++ b).data = a.data ++ b.data := by
  cases a
  cases b
  rfl

theorem buildCmdFailed_ne_noArtifacts (m : String) :
    buildCmdFailedMsg m ≠ noArtifactsMsg := by
  intro h
  have hd : (buildCmdFailedMsg m).data.take 29 = noArtifactsMsg.data.take 29 :=
    congrArg (fun s => s.data.take 29) h
  rw [show (buildCmdFailedMsg m).data =
      "Failed to build executable: Build command failed: ".data ++
        (m ++ ". This could be due to missing dependencies, Windows build tools not available, or insufficient system resources.").data
    from string_data_append _ _] at hd
  rw [List.take_append_of_le_length (by decide)] at hd
  exact absurd hd (by decide)

/-- Claim C6: after a zero exit, buildExecutable performs the recursive
`.exe`-filtered search of the expected dist directory, then, if that is
empty, of the fallback parent dist directory; if both are empty it fails
with the no-artifacts error, which differs from the non-zero-exit
build-command-failed error for every subprocess message; and on success
every matched artifact is copied (one fs.copy per artifact, source left
in place) into the per-build output directory under its base name. -/
theorem claim_C6 :
    (∀ (m : String) (ld pd : Option (List FsTree)),
      buildExecutable (some m) ld pd = (Except.error (buildCmdFailedMsg m), [])) ∧
    (∀ m : String, buildCmdFailedMsg m ≠ noArtifactsMsg) ∧
    (∀ ld pd : Option (List FsTree), exeFilesIn ld = [] → exeFilesIn pd = [] →
      buildExecutable none ld pd = (Except.error noArtifactsMsg, [])) ∧
    (∀ ld pd : Option (List FsTree), exeFilesIn ld ≠ [] →
      buildExecutable none ld pd =
        (Except.ok ((exeFilesIn ld).map (fun f => f.getLastD "")),
         (exeFilesIn ld).map (fun f => (f, f.getLastD "")))) ∧
    (∀ ld pd : Option (List FsTree), exeFilesIn ld = [] → exeFilesIn pd ≠ [] →
      buildExecutable none ld pd =
        (Except.ok ((exeFilesIn pd).map (fun f => f.getLastD "")),
         (exeFilesIn pd).map (fun f => (f, f.getLastD "")))) := by
  refine ⟨fun m ld pd => rfl, buildCmdFailed_ne_noArtifacts, ?_, ?_, ?_⟩
  · intro ld pd h1 h2
    simp [buildExecutable, h1, h2]
  · intro ld pd h1
    simp [buildExecutable, h1]
  · intro ld pd h1 h2
    simp [buildExecutable, h1, h2]

theorem claim_C6_witness :
    (exeFilesIn (some [FsTree.dir "win-unpacked"
        [FsTree.file "My App Setup 1.0.0 ia32.exe" "MZ"], FsTree.file "notes.txt" "n"]) ≠ []) ∧
    buildExecutable none
        (some [FsTree.dir "win-unpacked"
          [FsTree.file "My App Setup 1.0.0 ia32.exe" "MZ"], FsTree.file "notes.txt" "n"])
        none =
      (Except.ok ["My App Setup 1.0.0 ia32.exe"],
       [(["win-unpacked", "My App Setup 1.0.0 ia32.exe"], "My App Setup 1.0.0 ia32.exe")]) := by
  constructor
  · decide
  · have h := claim_C6.2.2.2.1
      (some [FsTree.dir "win-unpacked"
        [FsTree.file "My App Setup 1.0.0 ia32.exe" "MZ"], FsTree.file "notes.txt" "n"])
      none (by decide)
    rw [h]
    rfl

/-! ## Claims C8 and C9 (nested-structure flattening, index.html) -/

theorem moveLoop_no_collision (dname : String) (ch : List FsTree)
    (h : ∀ t ∈ ch, nameOf t ≠ dname) : moveLoop dname ch = (ch, none) := by
  induction ch with
  | nil => rfl
  | cons t rest ih =>
    have ht : ¬ nameOf t = dname := h t (by simp)
    have hrest := ih (fun u hu => h u (List.mem_cons_of_mem _ hu))
    simp [moveLoop, ht, hrest]

/-- A workspace where the single wrapping directory contains a child that
carries the wrapper's own name, next to the HTML content. -/
def c8Root : List FsTree :=
  [FsTree.dir "app" [FsTree.file "app" "x", FsTree.file "index.html" "<html></html>"]]

/-- Claim C8, counterexample to the claim as stated: the workspace root
of `c8Root` has exactly one entry, a directory whose contents include an
HTML file, yet handleNestedStructure leaves the workspace unchanged
instead of moving the children up — the first move targets the wrapper's
own path, `fs.move` fails on the existing destination, and the error is
swallowed. -/
theorem claim_C8_counterexample :
    (∃ dname ch, c8Root = [FsTree.dir dname ch] ∧ hasHtmlDeep ch = true) ∧
    handleNestedStructure c8Root = c8Root ∧
    handleNestedStructure c8Root ≠
      [FsTree.file "app" "x", FsTree.file "index.html" "<html></html>"] := by
  refine ⟨⟨"app", [FsTree.file "app" "x", FsTree.file "index.html" "<html></html>"],
    rfl, by decide⟩, rfl, ?_⟩
  intro h
  have hlen := congrArg List.length h
  rw [show handleNestedStructure c8Root = c8Root from rfl] at hlen
  simp [c8Root] at hlen

/-- Claim C8, amended.  When the workspace root holds exactly one entry,
a directory containing (at any depth) a file with the `.html` extension,
and no direct child of that directory carries the directory's own name,
handleNestedStructure moves every child to the workspace root and removes
the emptied directory; with no HTML file inside, or with more than one
root entry, or a single non-directory entry, the workspace is unchanged. -/
theorem claim_C8_amended :
    (∀ (dname : String) (ch : List FsTree), hasHtmlDeep ch = true →
      (∀ t ∈ ch, nameOf t ≠ dname) →
      handleNestedStructure [FsTree.dir dname ch] = ch) ∧
    (∀ (dname : String) (ch : List FsTree), hasHtmlDeep ch = false →
      handleNestedStructure [FsTree.dir dname ch] = [FsTree.dir dname ch]) ∧
    (∀ (t1 t2 : FsTree) (rest : List FsTree),
      handleNestedStructure (t1 :: t2 :: rest) = t1 :: t2 :: rest) ∧
    (∀ n c : String, handleNestedStructure [FsTree.file n c] = [FsTree.file n c]) ∧
    handleNestedStructure [] = [] := by
  refine ⟨?_, ?_, ?_, fun n c => rfl, rfl⟩
  · intro dname ch h1 h2
    simp [handleNestedStructure, h1, moveLoop_no_collision dname ch h2]
  · intro dname ch h1
    simp [handleNestedStructure, h1]
  · intro t1 t2 rest
    cases t1 <;> rfl

theorem claim_C8_amended_witness :
    handleNestedStructure
        [FsTree.dir "wrapper" [FsTree.file "index.html" "<p>hello</p>"]] =
      [FsTree.file "index.html" "<p>hello</p>"] :=
  claim_C8_amended.1 "wrapper" [FsTree.file "index.html" "<p>hello</p>"]
    (by decide) (by decide)

/-- A workspace whose root holds a directory named `index.html` and an
HTML file under another name. -/
def c9Root : List FsTree :=
  [FsTree.dir "index.html" [FsTree.file "readme.txt" "hi"],
   FsTree.file "page.html" "<html></html>"]

/-- Claim C9, counterexample to the claim as stated: no file named
`index.html` exists at the workspace root of `c9Root` (the entry of that
name is a directory) and an `.html` file exists, yet ensureIndexHtml
leaves the workspace unchanged — `fs.pathExists` matches the directory —
instead of duplicating `page.html` to the canonical name. -/
theorem claim_C9_counterexample :
    (∀ t ∈ c9Root, isFileNamed "index.html" t = false) ∧
    ((filesOf c9Root).filter (fun f => extnameLower (joinSegs f.1) == ".html")) ≠ [] ∧
    ensureIndexHtml c9Root = Except.ok c9Root := by
  refine ⟨by decide, by decide, rfl⟩

/-- Claim C9, amended.  ensureIndexHtml leaves the workspace unchanged
when any root entry — file or directory — is named `index.html`;
otherwise it duplicates the first `.html` file in depth-first
directory-listing order to `index.html` at the workspace root, keeping
the original in place (the result is the old listing plus the one new
file), and it fails when no `.html` file exists at all. -/
theorem claim_C9_amended :
    (∀ root : List FsTree, root.any (fun t => nameOf t == "index.html") = true →
      ensureIndexHtml root = Except.ok root) ∧
    (∀ (root : List FsTree) (f : List String × String)
        (rest : List (List String × String)),
      root.any (fun t => nameOf t == "index.html") = false →
      (filesOf root).filter (fun g => extnameLower (joinSegs g.1) == ".html") = f :: rest →
      ensureIndexHtml root = Except.ok (root ++ [FsTree.file "index.html" f.2])) ∧
    (∀ root : List FsTree, root.any (fun t => nameOf t == "index.html") = false →
      (filesOf root).filter (fun g => extnameLower (joinSegs g.1) == ".html") = [] →
      ensureIndexHtml root = Except.error "No HTML files found to use as index.html") := by
  refine ⟨?_, ?_, ?_⟩
  · intro root h1
    simp [ensureIndexHtml, h1]
  · intro root f rest h1 h2
    simp [ensureIndexHtml, h1, h2]
  · intro root h1 h2
    simp [ensureIndexHtml, h1, h2]

theorem claim_C9_amended_witness :
    ensureIndexHtml [FsTree.file "a.html" "<html>x</html>"] =
      Except.ok [FsTree.file "a.html" "<html>x</html>",
        FsTree.file "index.html" "<html>x</html>"] :=
  claim_C9_amended.2.1 [FsTree.file "a.html" "<html>x</html>"]
    ((["a.html"], "<html>x</html>")) [] (by decide) rfl

/-! ## Claim C10 (app name validation, electronBuilder.js) -/

/-- Collapse every maximal run of characters satisfying `p` into a single
`rep` character: a structural scanner with an in-run flag. -/
def collapseRunsGo (p : Char → Bool) (rep : Char) : Bool → List Char → List Char
  | _, [] => []
  | inRun, c :: rest =>
    if p c then
      if inRun then collapseRunsGo p rep true rest
      else rep :: collapseRunsGo p rep true rest
    else c :: collapseRunsGo p rep false rest

def collapseRuns (p : Char → Bool) (rep : Char) (cs : List Char) : List Char :=
  collapseRunsGo p rep false cs

/-- JavaScript String.prototype.trim (ASCII whitespace). -/
def jsTrim (cs : List Char) : List Char :=
  ((cs.dropWhile Char.isWhitespace).reverse.dropWhile Char.isWhitespace).reverse

/-- The tail of sanitizeAppName: `substring(0, 214) || 'my-app'` — the
truncated result, or the npm-compliant fallback when it is empty. -/
def appNameFallback (cs : List Char) : String :=
  if cs.isEmpty then "my-app" else String.mk cs

/-- electronBuilder.js sanitizeAppName (lines 450-469), step for step:
lower-case, trim, whitespace/underscore runs to a hyphen, drop all
characters outside `[a-z0-9.-]`, collapse hyphen runs and dot runs
(the source regexes only touch runs of length at least two, which agrees
with collapsing every run to one character), strip leading/trailing dots
and hyphens, strip one leading dot or underscore, prefix `app-` before a
leading digit, cut to 214 characters, and fall back to `my-app` when the
result is empty. -/
def sanitizeAppName (name : String) : String :=
  let s1 := name.data.map Char.toLower
  let s2 := jsTrim s1
  let s3 := collapseRuns (fun c => c.isWhitespace || c = '_') '-' s2
  let s4 := s3.filter
    (fun c => ('a' ≤ c && c ≤ 'z') || ('0' ≤ c && c ≤ '9') || c = '.' || c = '-')
  let s5 := collapseRuns (fun c => c = '-') '-' s4
  let s6 := collapseRuns (fun c => c = '.') '.' s5
  let s7 := ((s6.dropWhile (fun c => c = '.' || c = '-')).reverse.dropWhile
    (fun c => c = '.' || c = '-')).reverse
  let s8 := match s7 with
    | c :: rest => if c = '.' || c = '_' then rest else s7
    | [] => s7
  let s9 := match s8 with
    | c :: _ => if c.isDigit then 'a' :: 'p' :: 'p' :: '-' :: s8 else s8
    | [] => s8
  appNameFallback (s9.take 214)

theorem appNameFallback_ne_empty (cs : List Char) : appNameFallback cs ≠ "" := by
  unfold appNameFallback
  split
  · decide
  · rename_i h
    intro habs
    apply h
    have hdata : cs = ("" : String).data := congrArg String.data habs
    simp at hdata
    simp [hdata]

theorem appNameFallback_length_le (cs : List Char) (h : cs.length ≤ 214) :
    (appNameFallback cs).length ≤ 214 := by
  unfold appNameFallback
  split
  · decide
  · simpa [String.length] using h

def exResultIsError {α : Type} : Except String α → Bool
  | Except.error _ => true
  | Except.ok _ => false

/-- The app-name validation of createElectronApp (lines 27-34):
`config.appName || 'My App'` replaces an absent or empty submitted name
by the default, and the name is rejected when the sanitized form is
falsy (empty) or equals `my-app` while the name the user typed is not
exactly `My App`.  On success the sanitized name becomes the technical
name and the typed name the product name. -/
def validateAppName (configAppName : String) : Except String (String × String) :=
  let userAppName := if configAppName = "" then "My App" else configAppName
  let sanitizedName := sanitizeAppName userAppName
  if sanitizedName = "" ∨ (sanitizedName = "my-app" ∧ userAppName ≠ "My App") then
    Except.error ("Invalid app name: \"" ++ userAppName ++
      "\". App names must contain at least one alphanumeric character.")
  else Except.ok (sanitizedName, userAppName)

/-- Claim C10: for every nonempty submitted name, createElectronApp
rejects it with the invalid-app-name error exactly when the sanitized
form is empty or equals the fallback `my-app` while the raw name is not
exactly `My App`; in particular `my app` sanitizes to `my-app` and is
rejected while `My App` itself is accepted; and the sanitized form is
never empty and never longer than 214 characters, so every name
sanitizing to some other string is accepted. -/
theorem claim_C10 :
    (∀ raw : String, raw ≠ "" →
      (exResultIsError (validateAppName raw) = true ↔
        (sanitizeAppName raw = "" ∨
          (sanitizeAppName raw = "my-app" ∧ raw ≠ "My App")))) ∧
    sanitizeAppName "my app" = "my-app" ∧
    exResultIsError (validateAppName "my app") = true ∧
    exResultIsError (validateAppName "My App") = false ∧
    exResultIsError (validateAppName "Hello World 2024") = false ∧
    (∀ raw : String, sanitizeAppName raw ≠ "" ∧ (sanitizeAppName raw).length ≤ 214) := by
  refine ⟨?_, by decide, by decide, by decide, by decide, ?_⟩
  · intro raw h
    simp only [validateAppName, if_neg h]
    by_cases hc : sanitizeAppName raw = "" ∨
        (sanitizeAppName raw = "my-app" ∧ raw ≠ "My App")
    · simp [exResultIsError, hc]
    · simp [exResultIsError, hc]
  · intro raw
    exact ⟨appNameFallback_ne_empty _, appNameFallback_length_le _ (List.length_take_le _ _)⟩

theorem claim_C10_witness :
    exResultIsError (validateAppName "my app") = true :=
  (claim_C10.1 "my app" (by decide)).mpr (Or.inr ⟨by decide, by decide⟩)

end Html2Exe
